import Mathlib

/-!
Verification of the spec of the `langextract-demo` repository.

The repository is a thin demonstration script (`src/main.py`) around the
`langextract` library; the specification describes a schema-guided
structured-extraction engine (the core behind `lx.extract()`).  The core is
not present under `src/`, so each component (Schema Compiler, Prompt
Builder, Response Parser, Span Aligner, Consistency Resolver, Document
Assembler, serialization collaborator) is modelled from the spec.  The
concrete data of the demo script (the prompt, the few-shot examples, the
input text) is embedded verbatim from `src/main.py`.

Source strings are modelled as `List Char` (Python strings are sequences of
code points); half-open character intervals as pairs of naturals.
-/

namespace LangExtract

/-- Alignment status of an extraction, from the spec data model:
`enum {exact, fuzzy, unaligned}`. -/
inductive AlignmentStatus where
  | exact
  | fuzzy
  | unaligned
deriving DecidableEq, Repr

/-- A half-open `(start, end)` offset pair into the source text.
The source's `end` field is called `stop` here (`end` is a Lean keyword). -/
structure CharInterval where
  start : Nat
  stop : Nat
deriving DecidableEq, Repr

/-- A candidate extraction as emitted by the Response Parser:
minimally `{class, exact_text, attributes}`.  `class` is spelled
`extraction_class` as in the demo script's `lx.data.Extraction`. -/
structure Candidate where
  extraction_class : String
  exact_text : List Char
  attributes : List (String × String)
deriving DecidableEq, Repr

/-- An extraction, from the spec data model: `{class, exact_text,
attributes, char_interval (optional), alignment_status}`. -/
structure Extraction where
  extraction_class : String
  exact_text : List Char
  attributes : List (String × String)
  char_interval : Option CharInterval
  alignment_status : AlignmentStatus
deriving DecidableEq, Repr

/-- `ExampleData`: an example text together with the extractions that should
be found in it (training signal only). -/
structure ExampleData where
  text : List Char
  extractions : List Candidate
deriving DecidableEq, Repr

/-- `AnnotatedDocument`: the immutable result of one extraction run. -/
structure AnnotatedDocument where
  document_id : String
  text : List Char
  extractions : List Extraction
deriving DecidableEq, Repr

/-- Python-style slice `s[a:b]` on a character list. -/
def pySlice (s : List Char) (a b : Nat) : List Char :=
  (s.drop a).take (b - a)

/-- Index of the first occurrence of `pat` in `s` (leftmost shift at which
`pat` is a prefix of the remaining suffix), or `none`. -/
def findOccAux (pat : List Char) : List Char → Option Nat
  | [] => if pat.isPrefixOf [] then some 0 else none
  | c :: rest =>
      if pat.isPrefixOf (c :: rest) then some 0
      else (findOccAux pat rest).map (· + 1)

/-- First occurrence of `pat` in `s` at offset ≥ `start`. -/
def findFrom (s pat : List Char) (start : Nat) : Option Nat :=
  (findOccAux pat (s.drop start)).map (· + start)

/-- `pat` occurs somewhere in `s` as a literal, case-sensitive substring. -/
def IsSubstring (pat s : List Char) : Prop :=
  ∃ i, pat <+: s.drop i

theorem findOccAux_isPrefix {pat s : List Char} {j : Nat}
    (h : findOccAux pat s = some j) : pat <+: s.drop j := by
  induction s generalizing j with
  | nil =>
    simp only [findOccAux] at h
    split at h
    · rename_i hp
      cases h
      simpa using List.isPrefixOf_iff_prefix.mp hp
    · cases h
  | cons c rest ih =>
    simp only [findOccAux] at h
    split at h
    · rename_i hp
      cases h
      simpa using List.isPrefixOf_iff_prefix.mp hp
    · rcases Option.map_eq_some'.mp h with ⟨k, hk, rfl⟩
      simpa [List.drop_succ_cons] using ih hk

theorem findOccAux_isSome_iff {pat s : List Char} :
    (findOccAux pat s).isSome = true ↔ IsSubstring pat s := by
  induction s with
  | nil =>
    constructor
    · intro h
      rcases Option.isSome_iff_exists.mp h with ⟨j, hj⟩
      exact ⟨j, by simpa using findOccAux_isPrefix hj⟩
    · rintro ⟨i, hi⟩
      simp only [List.drop_nil] at hi
      have : pat = [] := List.prefix_nil.mp hi
      simp [findOccAux, this, List.isPrefixOf_iff_prefix]
  | cons c rest ih =>
    constructor
    · intro h
      rcases Option.isSome_iff_exists.mp h with ⟨j, hj⟩
      exact ⟨j, findOccAux_isPrefix hj⟩
    · rintro ⟨i, hi⟩
      simp only [findOccAux]
      split
      · simp
      · rename_i hp
        have hne : ¬ pat <+: (c :: rest) := by
          intro hc
          exact hp (List.isPrefixOf_iff_prefix.mpr hc)
      -- the occurrence cannot be at shift 0, so it is inside `rest`
        have : IsSubstring pat rest := by
          cases i with
          | zero => exact absurd (by simpa using hi) hne
          | succ k => exact ⟨k, by simpa [List.drop_succ_cons] using hi⟩
        have := ih.mpr this
        rcases Option.isSome_iff_exists.mp this with ⟨j, hj⟩
        simp [hj]

theorem findFrom_isPrefix {s pat : List Char} {i j : Nat}
    (h : findFrom s pat i = some j) : pat <+: s.drop j := by
  rcases Option.map_eq_some'.mp h with ⟨k, hk, rfl⟩
  have := findOccAux_isPrefix hk
  rw [List.drop_drop] at this
  rwa [Nat.add_comm k i]

/-- A prefix occurrence at `j` makes the slice `s[j : j + pat.length]`
reproduce `pat` verbatim. -/
theorem pySlice_of_isPrefix {s pat : List Char} {j : Nat}
    (h : pat <+: s.drop j) : pySlice s j (j + pat.length) = pat := by
  have := List.prefix_iff_eq_take.mp h
  simp [pySlice, Nat.add_sub_cancel_left, ← this]

/-- Normalization used by the fuzzy fallback: drop whitespace and
punctuation, keeping alphanumeric characters only. -/
def normalizeText (s : List Char) : List Char :=
  s.filter (fun c => c.isAlphanum)

/-- Modelled from the spec: step 3 of the Span Aligner (§4.5), which is
missing from `src/` — approximate matching of `pat` against a sliding
window of `s` of the candidate's length, after normalizing
whitespace/punctuation.  Returns the offset of the first window whose
normalization coincides with `pat`'s, or `none`.  The spec leaves the
scoring function tunable; this model uses normalized equality. -/
def fuzzyOccAux (pat : List Char) : List Char → Option Nat
  | [] => none
  | c :: rest =>
      if normalizeText ((c :: rest).take pat.length) = normalizeText pat then some 0
      else (fuzzyOccAux pat rest).map (· + 1)

/-- Build an `Extraction` from a candidate plus alignment results; the
class, exact text and attributes are carried over unchanged. -/
def mkExtraction (c : Candidate) (iv : Option CharInterval)
    (st : AlignmentStatus) : Extraction :=
  ⟨c.extraction_class, c.exact_text, c.attributes, iv, st⟩

/-- Modelled from the spec: the Span Aligner (§4.5) for one candidate,
which is missing from `src/`.  Step 1: literal search from the monotonic
cursor (exact).  Step 2: literal search from the start of the text
(exact).  Step 3: fuzzy window match (fuzzy).  Step 4: unaligned, interval
absent.  Returns the extraction and the new cursor (end of the aligned
interval, unchanged if unaligned). -/
def alignOne (text : List Char) (cursor : Nat) (c : Candidate) :
    Extraction × Nat :=
  match findFrom text c.exact_text cursor with
  | some j =>
      (mkExtraction c (some ⟨j, j + c.exact_text.length⟩) .exact,
       j + c.exact_text.length)
  | none =>
      match findFrom text c.exact_text 0 with
      | some j =>
          (mkExtraction c (some ⟨j, j + c.exact_text.length⟩) .exact,
           j + c.exact_text.length)
      | none =>
          match fuzzyOccAux c.exact_text text with
          | some j =>
              (mkExtraction c (some ⟨j, j + c.exact_text.length⟩) .fuzzy,
               j + c.exact_text.length)
          | none => (mkExtraction c none .unaligned, cursor)

/-- The Span Aligner over a candidate list, threading the monotonic cursor. -/
def alignAux (text : List Char) (cursor : Nat) : List Candidate → List Extraction
  | [] => []
  | c :: cs =>
      let r := alignOne text cursor c
      r.1 :: alignAux text r.2 cs

/-- Modelled from the spec: the Span Aligner (§4.5) on a whole candidate
list, which is missing from `src/`.  The cursor starts at 0; candidates
are processed in parser-emission order. -/
def alignCandidates (text : List Char) (cands : List Candidate) : List Extraction :=
  alignAux text 0 cands

/-- Forget alignment data, back to the candidate record. -/
def toCandidate (e : Extraction) : Candidate :=
  ⟨e.extraction_class, e.exact_text, e.attributes⟩

theorem toCandidate_alignOne (text : List Char) (cursor : Nat) (c : Candidate) :
    toCandidate (alignOne text cursor c).1 = c := by
  unfold alignOne
  cases findFrom text c.exact_text cursor with
  | some j => rfl
  | none =>
    cases findFrom text c.exact_text 0 with
    | some j => rfl
    | none =>
      cases fuzzyOccAux c.exact_text text with
      | some j => rfl
      | none => rfl

theorem alignAux_map_toCandidate (text : List Char) (cursor : Nat)
    (cs : List Candidate) : (alignAux text cursor cs).map toCandidate = cs := by
  induction cs generalizing cursor with
  | nil => rfl
  | cons c cs ih =>
    simp [alignAux, toCandidate_alignOne, ih]

theorem alignAux_length (text : List Char) (cursor : Nat)
    (cs : List Candidate) : (alignAux text cursor cs).length = cs.length := by
  have := congrArg List.length (alignAux_map_toCandidate text cursor cs)
  simpa using this

/-- The exact-alignment invariant of the spec data model: an extraction
whose status is `exact` carries an interval whose slice of the source text
reproduces `exact_text` verbatim. -/
def ExactSliceInv (text : List Char) (e : Extraction) : Prop :=
  e.alignment_status = .exact →
    ∃ iv, e.char_interval = some iv ∧ pySlice text iv.start iv.stop = e.exact_text

theorem alignOne_exactSliceInv (text : List Char) (cursor : Nat)
    (c : Candidate) : ExactSliceInv text (alignOne text cursor c).1 := by
  unfold alignOne
  cases hf : findFrom text c.exact_text cursor with
  | some j =>
    intro _
    exact ⟨⟨j, j + c.exact_text.length⟩, rfl,
      pySlice_of_isPrefix (findFrom_isPrefix hf)⟩
  | none =>
    cases hg : findFrom text c.exact_text 0 with
    | some j =>
      intro _
      exact ⟨⟨j, j + c.exact_text.length⟩, rfl,
        pySlice_of_isPrefix (findFrom_isPrefix hg)⟩
    | none =>
      cases fuzzyOccAux c.exact_text text with
      | some j => intro h; cases h
      | none => intro h; cases h

theorem alignAux_exactSliceInv (text : List Char) (cursor : Nat)
    (cs : List Candidate) :
    ∀ e ∈ alignAux text cursor cs, ExactSliceInv text e := by
  induction cs generalizing cursor with
  | nil => intro e he; cases he
  | cons c cs ih =>
    intro e he
    simp only [alignAux, List.mem_cons] at he
    rcases he with rfl | he
    · exact alignOne_exactSliceInv text cursor c
    · exact ih _ e he

/-- Start offset used for sorting; extractions without an interval never
enter the sorted aligned block, so the default value is irrelevant. -/
def startOf (e : Extraction) : Nat :=
  match e.char_interval with
  | some iv => iv.start
  | none => 0

/-- The sort key order used by the resolver. -/
def startLE (a b : Extraction) : Prop :=
  startOf a ≤ startOf b

instance : DecidableRel startLE :=
  fun a b => Nat.decLe (startOf a) (startOf b)

instance : IsTotal Extraction startLE :=
  ⟨fun a b => Nat.le_total (startOf a) (startOf b)⟩

instance : IsTrans Extraction startLE :=
  ⟨fun _ _ _ => Nat.le_trans⟩

/-- Two half-open intervals overlap. -/
def overlaps (a b : CharInterval) : Bool :=
  decide (a.start < b.stop) && decide (b.start < a.stop)

/-- Modelled from the spec: the overlap sweep of the Consistency Resolver
(§4.6a), which is missing from `src/`.  Walking the aligned extractions in
ascending start order, an exact-aligned extraction starting before the end
of the exact-aligned region kept so far is dropped and counted as a
conflict; everything else is kept.  `maxEnd` is the largest `stop` of the
exact-aligned extractions kept so far.  Returns kept extractions and the
conflict count. -/
def sweep (maxEnd : Nat) : List Extraction → List Extraction × Nat
  | [] => ([], 0)
  | e :: rest =>
      match e.alignment_status, e.char_interval with
      | .exact, some iv =>
          if iv.start < maxEnd then
            let r := sweep maxEnd rest
            (r.1, r.2 + 1)
          else
            let r := sweep (max maxEnd iv.stop) rest
            (e :: r.1, r.2)
      | _, _ =>
          let r := sweep maxEnd rest
          (e :: r.1, r.2)

/-- Modelled from the spec: the Consistency Resolver (§4.6), which is
missing from `src/`.  Aligned candidates are sorted by ascending
`char_interval.start`, overlapping exact-aligned ones are swept (earliest
start kept, later ones dropped and counted as conflicts), and unaligned
candidates are appended after all aligned ones in their original order.
Returns the resolved sequence and the conflict count. -/
def resolveExtractions (l : List Extraction) : List Extraction × Nat :=
  let aligned := l.filter (fun e => e.char_interval.isSome)
  let unaligned := l.filter (fun e => e.char_interval.isNone)
  let sorted := List.insertionSort startLE aligned
  let r := sweep 0 sorted
  (r.1 ++ unaligned, r.2)

/-- Modelled from the spec: the pipeline from parsed candidates to the
assembled document (Span Aligner → Consistency Resolver → Document
Assembler, §4.5–4.7), which is missing from `src/`.  The document id is
caller-supplied (the spec generates a fresh unique id, an effect outside
this pure model).  Returns the document and the conflict count. -/
def runPipeline (docId : String) (text : List Char) (cands : List Candidate) :
    AnnotatedDocument × Nat :=
  let aligned := alignCandidates text cands
  let r := resolveExtractions aligned
  (⟨docId, text, r.1⟩, r.2)

theorem sweep_sublist (maxEnd : Nat) (l : List Extraction) :
    List.Sublist (sweep maxEnd l).1 l := by
  induction l generalizing maxEnd with
  | nil => simp [sweep]
  | cons e rest ih =>
    unfold sweep
    cases hst : e.alignment_status <;> cases hci : e.char_interval <;>
      simp only
    case exact.some iv =>
      split
      · exact List.Sublist.cons e (ih maxEnd)
      · exact List.Sublist.cons₂ e (ih (max maxEnd iv.stop))
    all_goals exact List.Sublist.cons₂ e (ih maxEnd)

theorem sweep_length (maxEnd : Nat) (l : List Extraction) :
    (sweep maxEnd l).1.length + (sweep maxEnd l).2 = l.length := by
  induction l generalizing maxEnd with
  | nil => simp [sweep]
  | cons e rest ih =>
    unfold sweep
    cases e.alignment_status <;> cases e.char_interval <;> simp only
    case exact.some iv =>
      split
      · have := ih maxEnd
        simp only [List.length_cons]
        omega
      · have := ih (max maxEnd iv.stop)
        simp only [List.length_cons]
        omega
    all_goals
      simp only [List.length_cons]
      have := ih maxEnd
      omega

/-- Every exact-aligned extraction kept by the sweep starts at or after the
incoming `maxEnd`. -/
theorem sweep_exact_start_ge (maxEnd : Nat) (l : List Extraction) :
    ∀ e ∈ (sweep maxEnd l).1, e.alignment_status = .exact →
      ∀ iv, e.char_interval = some iv → maxEnd ≤ iv.start := by
  induction l generalizing maxEnd with
  | nil => intro e he; cases he
  | cons a rest ih =>
    intro e he hst iv hiv
    unfold sweep at he
    rcases h1 : a.alignment_status <;> rcases h2 : a.char_interval <;>
      rw [h1, h2] at he <;> simp only at he
    case exact.some iv' =>
      split at he
      · exact ih maxEnd e he hst iv hiv
      · rename_i hge
        rcases List.mem_cons.mp he with rfl | he
        · rw [hiv] at h2
          injection h2 with h3
          subst h3
          omega
        · have := ih (max maxEnd iv'.stop) e he hst iv hiv
          omega
    all_goals
      rcases List.mem_cons.mp he with rfl | he
      · first
        | exact Option.noConfusion (h2.symm.trans hiv)
        | exact AlignmentStatus.noConfusion (h1.symm.trans hst)
      · exact ih maxEnd e he hst iv hiv

/-- The no-overlap relation the resolver enforces between exact-aligned
extractions. -/
def NoExactOverlap (e1 e2 : Extraction) : Prop :=
  e1.alignment_status = .exact → e2.alignment_status = .exact →
    ∀ iv1 iv2, e1.char_interval = some iv1 → e2.char_interval = some iv2 →
      overlaps iv1 iv2 = false

theorem sweep_pairwise (maxEnd : Nat) (l : List Extraction) :
    (sweep maxEnd l).1.Pairwise NoExactOverlap := by
  induction l generalizing maxEnd with
  | nil => simp [sweep]
  | cons a rest ih =>
    unfold sweep
    rcases h1 : a.alignment_status <;> rcases h2 : a.char_interval <;>
      simp only
    case exact.some iv' =>
      split
      · exact ih maxEnd
      · refine List.Pairwise.cons ?_ (ih (max maxEnd iv'.stop))
        intro e he
        intro _ hst2 iv1 iv2 hiv1 hiv2
        rw [h2] at hiv1; cases hiv1
        have := sweep_exact_start_ge (max maxEnd iv'.stop) rest e he hst2 iv2 hiv2
        simp only [overlaps, Bool.and_eq_false_iff, decide_eq_false_iff_not, not_lt]
        right
        omega
    all_goals
      refine List.Pairwise.cons ?_ (ih maxEnd)
      intro e he hst1 hst2 iv1 iv2 hiv1 hiv2
      first
      | exact Option.noConfusion (h2.symm.trans hiv1)
      | exact AlignmentStatus.noConfusion (h1.symm.trans hst1)

/-- The keep-earlier policy of the sweep: on a start-sorted input, an
exact-aligned extraction that the sweep drops either already conflicted
with the incoming `maxEnd`, or some kept exact-aligned extraction starts
no later than it and its span covers the dropped one's start. -/
theorem sweep_dropped (maxEnd : Nat) (l : List Extraction)
    (hsort : l.Pairwise startLE) :
    ∀ e ∈ l, e.alignment_status = .exact → ∀ iv, e.char_interval = some iv →
      e ∉ (sweep maxEnd l).1 →
      iv.start < maxEnd ∨
        ∃ e' ∈ (sweep maxEnd l).1, e'.alignment_status = .exact ∧
          ∃ iv', e'.char_interval = some iv' ∧
            iv'.start ≤ iv.start ∧ iv.start < iv'.stop := by
  induction l generalizing maxEnd with
  | nil => intro e he; cases he
  | cons a rest ih =>
    intro e he hst iv hiv hnk
    rcases List.pairwise_cons.mp hsort with ⟨hhead, htail⟩
    unfold sweep at hnk ⊢
    rcases h1 : a.alignment_status <;> rcases h2 : a.char_interval <;>
      (try rw [h1] at hnk) <;> (try rw [h2] at hnk) <;> simp only at hnk ⊢
    case exact.some iva =>
      by_cases hc : iva.start < maxEnd
      · rw [if_pos hc] at hnk ⊢
        rcases List.mem_cons.mp he with rfl | he'
        · rw [hiv] at h2
          injection h2 with h3
          subst h3
          exact Or.inl hc
        · exact ih maxEnd htail e he' hst iv hiv hnk
      · rw [if_neg hc] at hnk ⊢
        rcases List.mem_cons.mp he with rfl | he'
        · exact absurd (List.mem_cons_self e _) hnk
        · have hnk' : e ∉ (sweep (max maxEnd iva.stop) rest).1 :=
            fun h => hnk (List.mem_cons_of_mem a h)
          rcases ih (max maxEnd iva.stop) htail e he' hst iv hiv hnk' with
            hlt | ⟨e', he2, hste, iv', hiv', hle, hstop⟩
          · by_cases hm : iv.start < maxEnd
            · exact Or.inl hm
            · refine Or.inr ⟨a, List.mem_cons_self a _, h1, iva, h2, ?_, ?_⟩
              · have hs := hhead e he'
                simp only [startLE, startOf, h2, hiv] at hs
                exact hs
              · omega
          · exact Or.inr ⟨e', List.mem_cons_of_mem a he2, hste, iv', hiv', hle, hstop⟩
    all_goals
      rcases List.mem_cons.mp he with rfl | he'
      · first
        | exact Option.noConfusion (h2.symm.trans hiv)
        | exact AlignmentStatus.noConfusion (h1.symm.trans hst)
      · have hnk' : e ∉ (sweep maxEnd rest).1 :=
          fun h => hnk (List.mem_cons_of_mem a h)
        rcases ih maxEnd htail e he' hst iv hiv hnk' with
          hlt | ⟨e', he2, hste, iv', hiv', hle, hstop⟩
        · exact Or.inl hlt
        · exact Or.inr ⟨e', List.mem_cons_of_mem a he2, hste, iv', hiv', hle, hstop⟩

theorem resolve_subset {l : List Extraction} {e : Extraction}
    (h : e ∈ (resolveExtractions l).1) : e ∈ l := by
  simp only [resolveExtractions] at h
  rcases List.mem_append.mp h with h | h
  · have h1 := (sweep_sublist 0 _).subset h
    have h2 := (List.mem_insertionSort startLE).mp h1
    exact (List.mem_filter.mp h2).1
  · exact (List.mem_filter.mp h).1

theorem resolve_kept_isSome {l : List Extraction} {e : Extraction}
    (h : e ∈ (sweep 0 (List.insertionSort startLE
      (l.filter (fun e => e.char_interval.isSome)))).1) :
    e.char_interval.isSome = true := by
  have h1 := (sweep_sublist 0 _).subset h
  have h2 := (List.mem_insertionSort startLE).mp h1
  exact (List.mem_filter.mp h2).2

theorem resolve_unaligned_isNone {l : List Extraction} {e : Extraction}
    (h : e ∈ l.filter (fun e => e.char_interval.isNone)) :
    e.char_interval.isNone = true :=
  (List.mem_filter.mp h).2

/-- The kept block of the resolver is sorted by start offset. -/
theorem resolve_kept_sorted (l : List Extraction) :
    (sweep 0 (List.insertionSort startLE
      (l.filter (fun e => e.char_interval.isSome)))).1.Pairwise startLE := by
  have hs : (List.insertionSort startLE
      (l.filter (fun e => e.char_interval.isSome))).Pairwise startLE :=
    List.sorted_insertionSort startLE _
  exact hs.sublist (sweep_sublist 0 _)

theorem filter_some_none_length (l : List Extraction) :
    (l.filter (fun e => e.char_interval.isSome)).length
      + (l.filter (fun e => e.char_interval.isNone)).length = l.length := by
  induction l with
  | nil => rfl
  | cons e rest ih =>
    cases h : e.char_interval <;>
      simp [List.filter_cons, h] <;> omega

theorem resolve_length (l : List Extraction) :
    (resolveExtractions l).1.length + (resolveExtractions l).2 = l.length := by
  simp only [resolveExtractions, List.length_append]
  have h1 := sweep_length 0 (List.insertionSort startLE
    (l.filter (fun e => e.char_interval.isSome)))
  have h2 : (List.insertionSort startLE
      (l.filter (fun e => e.char_interval.isSome))).length
      = (l.filter (fun e => e.char_interval.isSome)).length :=
    (List.perm_insertionSort startLE _).length_eq
  have h3 := filter_some_none_length l
  omega

/-- The ordering relation of the resolved sequence (§4.6b): once an
extraction has no interval, everything after it has none either, and
intervals, when present, appear with non-decreasing start offsets. -/
def ResolvedOrder (a b : Extraction) : Prop :=
  (a.char_interval = none → b.char_interval = none) ∧
  (∀ iv1 iv2, a.char_interval = some iv1 → b.char_interval = some iv2 →
    iv1.start ≤ iv2.start)

theorem resolve_pairwise_order (l : List Extraction) :
    (resolveExtractions l).1.Pairwise ResolvedOrder := by
  simp only [resolveExtractions]
  rw [List.pairwise_append]
  refine ⟨?_, ?_, ?_⟩
  · refine List.Pairwise.imp_of_mem ?_ (resolve_kept_sorted l)
    intro a b ha hb hr
    constructor
    · intro hnone
      have := resolve_kept_isSome ha
      rw [hnone] at this
      cases this
    · intro iv1 iv2 hiv1 hiv2
      simpa [startLE, startOf, hiv1, hiv2] using hr
  · refine List.pairwise_of_forall_mem_list ?_
    intro a ha b hb
    constructor
    · intro _
      exact Option.isNone_iff_eq_none.mp (resolve_unaligned_isNone hb)
    · intro iv1 iv2 hiv1 hiv2
      have := resolve_unaligned_isNone hb
      rw [hiv2] at this
      cases this
  · intro a ha b hb
    constructor
    · intro hnone
      have := resolve_kept_isSome ha
      rw [hnone] at this
      cases this
    · intro iv1 iv2 hiv1 hiv2
      have := resolve_unaligned_isNone hb
      rw [hiv2] at this
      cases this

theorem resolve_pairwise_noOverlap (l : List Extraction) :
    (resolveExtractions l).1.Pairwise NoExactOverlap := by
  simp only [resolveExtractions]
  rw [List.pairwise_append]
  refine ⟨sweep_pairwise 0 _, ?_, ?_⟩
  · refine List.pairwise_of_forall_mem_list ?_
    intro a ha b hb _ _ iv1 iv2 hiv1 hiv2
    have := resolve_unaligned_isNone hb
    rw [hiv2] at this
    cases this
  · intro a ha b hb _ _ iv1 iv2 hiv1 hiv2
    have := resolve_unaligned_isNone hb
    rw [hiv2] at this
    cases this

/-- The unaligned tail of the resolved sequence is exactly the unaligned
extractions of the input, in their original order. -/
theorem resolve_unaligned_tail (l : List Extraction) :
    (resolveExtractions l).1.filter (fun e => e.char_interval.isNone)
      = l.filter (fun e => e.char_interval.isNone) := by
  simp only [resolveExtractions]
  rw [List.filter_append]
  have h1 : (sweep 0 (List.insertionSort startLE
      (l.filter (fun e => e.char_interval.isSome)))).1.filter
        (fun e => e.char_interval.isNone) = [] := by
    refine List.filter_eq_nil_iff.mpr ?_
    intro a ha
    have := resolve_kept_isSome ha
    simp [Option.isNone_iff_eq_none, Option.isSome_iff_exists] at this ⊢
    rcases this with ⟨iv, hiv⟩
    simp [hiv]
  have h2 : (l.filter (fun e => e.char_interval.isNone)).filter
      (fun e => e.char_interval.isNone)
      = l.filter (fun e => e.char_interval.isNone) := by
    refine List.filter_eq_self.mpr ?_
    intro a ha
    exact (List.mem_filter.mp ha).2
  rw [h1, h2, List.nil_append]

/-- An extraction schema: the permitted classes and, per class, the
attribute keys observed across the examples (union). -/
structure Schema where
  classes : List String
  attrKeys : List (String × List String)
deriving DecidableEq, Repr

/-- Errors of the Schema Compiler (§4.1/§7). -/
inductive SchemaError where
  | emptyExamples
  | exampleNotSubstring
deriving DecidableEq, Repr

/-- Executable literal-substring test. -/
def isSubstringB (pat s : List Char) : Bool :=
  (findOccAux pat s).isSome

/-- Every extraction of the example claims a verbatim substring of the
example's own text. -/
def exampleSelfConsistent (ex : ExampleData) : Bool :=
  ex.extractions.all (fun e => isSubstringB e.exact_text ex.text)

/-- Classes observed across the examples, deduplicated. -/
def observedClasses (examples : List ExampleData) : List String :=
  (examples.foldr (fun ex acc =>
    ex.extractions.map (fun e => e.extraction_class) ++ acc) []).dedup

/-- Union of attribute keys observed for one class across the examples. -/
def observedAttrKeys (examples : List ExampleData) (cls : String) : List String :=
  (examples.foldr (fun ex acc =>
    (ex.extractions.filter (fun e => e.extraction_class == cls)).foldr
      (fun e acc2 => e.attributes.map (fun p => p.1) ++ acc2) acc) []).dedup

/-- Modelled from the spec: the Schema Compiler (§4.1), which is missing
from `src/`.  Fails with `SchemaError` if the examples are empty or some
example extraction's `exact_text` is not a literal substring of its owning
example's text; otherwise produces the schema (classes plus per-class
union of observed attribute keys).  A pure function, no side effects. -/
def compileSchema (_desc : String) (examples : List ExampleData) :
    Except SchemaError Schema :=
  if examples.isEmpty then .error .emptyExamples
  else if examples.all exampleSelfConsistent then
    .ok ⟨observedClasses examples,
      (observedClasses examples).map
        (fun cls => (cls, observedAttrKeys examples cls))⟩
  else .error .exampleNotSubstring

/-- `true` exactly when the Schema Compiler failed. -/
def isSchemaErr : Except SchemaError Schema → Bool
  | .error _ => true
  | .ok _ => false

/-- Canonical rendering of an attribute set inside the prompt. -/
def renderAttrs (attrs : List (String × String)) : String :=
  String.join (attrs.map (fun p => p.1 ++ "=" ++ p.2 ++ ";"))

/-- Canonical rendering of one example extraction inside the prompt. -/
def renderCandidate (c : Candidate) : String :=
  c.extraction_class ++ "|" ++ String.mk c.exact_text ++ "|"
    ++ renderAttrs c.attributes

/-- Canonical rendering of one example inside the prompt. -/
def renderExample (ex : ExampleData) : String :=
  String.mk ex.text ++ "\n"
    ++ String.join (ex.extractions.map (fun c => renderCandidate c ++ "\n"))

/-- The fixed formatting rules of the instruction payload (§4.2b):
verbatim-substring extraction, no overlap. -/
def formattingRules : String :=
  "Use exact text for extractions. Do not paraphrase or overlap entities."

/-- Canonical rendering of the schema inside the prompt. -/
def renderSchema (s : Schema) : String :=
  String.join (s.classes.map (fun c => c ++ ","))

/-- Modelled from the spec: the Prompt Builder (§4.2), which is missing
from `src/` — a single instruction payload combining the task description,
the fixed formatting rules, the schema, and the examples in a fixed
canonical format.  A pure function of its three inputs, no I/O. -/
def buildPrompt (schema : Schema) (desc : String) (examples : List ExampleData) :
    String :=
  desc ++ "\n" ++ formattingRules ++ "\n" ++ renderSchema schema ++ "\n"
    ++ String.join (examples.map renderExample)

/-- The extraction prompt of `src/main.py` (step 1), after
`textwrap.dedent`. -/
def prompt : String :=
  "Extract characters, emotions, and relationships in order of appearance.\nUse exact text for extractions. Do not paraphrase or overlap entities.\nProvide meaningful attributes for each entity to add context."

/-- The input text of `src/main.py` (step 3). -/
def input_text : String :=
  "Lady Juliet gazed longingly at the stars, her heart aching for Romeo"

/-- The few-shot examples of `src/main.py` (step 2), embedded verbatim:
one `ExampleData` with three extractions. -/
def examples : List ExampleData :=
  [⟨("ROMEO. But soft! What light through yonder window breaks? It is the east, and Juliet is the sun.").toList,
    [⟨"character", "ROMEO".toList, [("emotional_state", "wonder")]⟩,
     ⟨"emotion", "But soft!".toList, [("feeling", "gentle awe")]⟩,
     ⟨"relationship", "Juliet is the sun".toList, [("type", "metaphor")]⟩]⟩]

/-- A JSON value, the shape of one line of the persisted JSONL layout and
of the model's structured output. -/
inductive Json where
  | str (s : String)
  | num (n : Nat)
  | obj (fields : List (String × Json))
  | arr (items : List Json)
  | null
deriving Repr

/-- Field lookup in a JSON object's field list. -/
def lookupField (fs : List (String × Json)) (k : String) : Option Json :=
  (fs.find? (fun p => p.1 == k)).map (fun p => p.2)

def statusToString : AlignmentStatus → String
  | .exact => "exact"
  | .fuzzy => "fuzzy"
  | .unaligned => "unaligned"

def statusOfString (s : String) : Option AlignmentStatus :=
  if s = "exact" then some .exact
  else if s = "fuzzy" then some .fuzzy
  else if s = "unaligned" then some .unaligned
  else none

def encodeInterval (iv : CharInterval) : Json :=
  .obj [("start_pos", .num iv.start), ("end_pos", .num iv.stop)]

def decodeInterval : Json → Option CharInterval
  | .obj fs =>
      match lookupField fs "start_pos", lookupField fs "end_pos" with
      | some (.num a), some (.num b) => some ⟨a, b⟩
      | _, _ => none
  | _ => none

def decodeAttrFields : List (String × Json) → Option (List (String × String))
  | [] => some []
  | (k, Json.str v) :: rest =>
      (decodeAttrFields rest).map (fun r => (k, v) :: r)
  | _ => none

def decodeAttrs : Json → Option (List (String × String))
  | .obj fs => decodeAttrFields fs
  | _ => none

/-- Modelled from the spec: the serialization collaborator's per-extraction
layout (§6), which is missing from `src/` — an object with at minimum
`{class, exact_text, attributes, char_interval?}`; the alignment status is
carried along so the layout loses nothing. -/
def encodeExtraction (e : Extraction) : Json :=
  .obj ([("class", .str e.extraction_class),
         ("exact_text", .str (String.mk e.exact_text)),
         ("attributes", .obj (e.attributes.map (fun p => (p.1, .str p.2)))),
         ("alignment_status", .str (statusToString e.alignment_status))]
    ++ (match e.char_interval with
        | some iv => [("char_interval", encodeInterval iv)]
        | none => []))

/-- Modelled from the spec: read-back of one persisted extraction (§6),
which is missing from `src/`. -/
def decodeExtraction : Json → Option Extraction
  | .obj fs =>
      match lookupField fs "class", lookupField fs "exact_text",
            lookupField fs "attributes", lookupField fs "alignment_status" with
      | some (.str c), some (.str t), some a, some (.str sts) =>
          match decodeAttrs a, statusOfString sts with
          | some attrs, some st =>
              match lookupField fs "char_interval" with
              | none => some ⟨c, t.toList, attrs, none, st⟩
              | some j =>
                  (decodeInterval j).map (fun iv => ⟨c, t.toList, attrs, some iv, st⟩)
          | _, _ => none
      | _, _, _, _ => none
  | _ => none

/-- Modelled from the spec: one line of the persisted JSONL layout (§6),
which is missing from `src/` — an object with `{document_id, text,
extractions}`. -/
def encodeDoc (d : AnnotatedDocument) : Json :=
  .obj [("document_id", .str d.document_id),
        ("text", .str (String.mk d.text)),
        ("extractions", .arr (d.extractions.map encodeExtraction))]

def decodeExtractionItems : List Json → Option (List Extraction)
  | [] => some []
  | j :: rest =>
      match decodeExtraction j, decodeExtractionItems rest with
      | some e, some es => some (e :: es)
      | _, _ => none

/-- Modelled from the spec: read-back of one persisted document (§6),
which is missing from `src/`. -/
def decodeDoc : Json → Option AnnotatedDocument
  | .obj fs =>
      match lookupField fs "document_id", lookupField fs "text",
            lookupField fs "extractions" with
      | some (.str id), some (.str t), some (.arr items) =>
          (decodeExtractionItems items).map (fun es => ⟨id, t.toList, es⟩)
      | _, _, _ => none
  | _ => none

theorem statusOfString_toString (st : AlignmentStatus) :
    statusOfString (statusToString st) = some st := by
  cases st <;> rfl

theorem decodeAttrFields_map (attrs : List (String × String)) :
    decodeAttrFields (attrs.map (fun p => (p.1, Json.str p.2))) = some attrs := by
  induction attrs with
  | nil => rfl
  | cons p rest ih =>
    cases p
    simp [decodeAttrFields, ih]

theorem decodeExtraction_encodeExtraction (e : Extraction) :
    decodeExtraction (encodeExtraction e) = some e := by
  rcases e with ⟨c, t, attrs, iv, st⟩
  cases iv with
  | none =>
    simp [encodeExtraction, decodeExtraction, lookupField, List.find?,
      decodeAttrs, decodeAttrFields_map, statusOfString_toString,
      decodeInterval, encodeInterval]
  | some iv0 =>
    simp [encodeExtraction, decodeExtraction, lookupField, List.find?,
      decodeAttrs, decodeAttrFields_map, statusOfString_toString,
      decodeInterval, encodeInterval]

theorem decodeExtractionItems_map (es : List Extraction) :
    decodeExtractionItems (es.map encodeExtraction) = some es := by
  induction es with
  | nil => rfl
  | cons e rest ih =>
    simp [decodeExtractionItems, decodeExtraction_encodeExtraction, ih]

theorem decodeDoc_encodeDoc (d : AnnotatedDocument) :
    decodeDoc (encodeDoc d) = some d := by
  rcases d with ⟨id, t, es⟩
  simp [encodeDoc, decodeDoc, lookupField, List.find?, decodeExtractionItems_map]

/-- Errors of the Response Parser (§4.4/§7). -/
inductive MalformedResponseError where
  | notAList
  | badRecord
deriving DecidableEq, Repr

/-- Modelled from the spec: decoding of one candidate record (§4.4), which
is missing from `src/`.  Requires `class` and `exact_text`; a missing
`attributes` field defaults to the empty attribute set. -/
def decodeCandidate : Json → Option Candidate
  | .obj fs =>
      match lookupField fs "class", lookupField fs "exact_text" with
      | some (.str c), some (.str t) =>
          match lookupField fs "attributes" with
          | none => some ⟨c, t.toList, []⟩
          | some a => (decodeAttrs a).map (fun attrs => ⟨c, t.toList, attrs⟩)
      | _, _ => none
  | _ => none

def decodeCandidateItems : List Json → Option (List Candidate)
  | [] => some []
  | j :: rest =>
      match decodeCandidate j, decodeCandidateItems rest with
      | some c, some cs => some (c :: cs)
      | _, _ => none

/-- Modelled from the spec: the Response Parser (§4.4), which is missing
from `src/`.  The raw output must be a list of records each carrying
`class` and `exact_text`; otherwise the call fails with
`MalformedResponseError`. -/
def parseResponse (raw : Json) : Except MalformedResponseError (List Candidate) :=
  match raw with
  | .arr items =>
      match decodeCandidateItems items with
      | some cs => .ok cs
      | none => .error .badRecord
  | _ => .error .notAList

/-- `true` exactly when the Response Parser succeeded. -/
def isParseOk : Except MalformedResponseError (List Candidate) → Bool
  | .ok _ => true
  | .error _ => false

/-- The expected structured shape of the model's raw output (§4.4), stated
independently of the parser: a list of records, each an object carrying
string fields `class` and `exact_text`, whose `attributes` field, when
present, is an object of string values. -/
def hasStringField (j : Json) (k : String) : Bool :=
  match j with
  | .obj fs =>
      match lookupField fs k with
      | some (.str _) => true
      | _ => false
  | _ => false

def attrsFieldOk (j : Json) : Bool :=
  match j with
  | .obj fs =>
      match lookupField fs "attributes" with
      | none => true
      | some (.obj afs) =>
          afs.all (fun p => match p.2 with | .str _ => true | _ => false)
      | some _ => false
  | _ => false

def wellShapedRecord (j : Json) : Bool :=
  hasStringField j "class" && hasStringField j "exact_text" && attrsFieldOk j

def wellShapedResponse (j : Json) : Bool :=
  match j with
  | .arr items => items.all wellShapedRecord
  | _ => false

theorem decodeAttrFields_isSome (fs : List (String × Json)) :
    (decodeAttrFields fs).isSome
      = fs.all (fun p => match p.2 with | .str _ => true | _ => false) := by
  induction fs with
  | nil => rfl
  | cons p rest ih =>
    rcases p with ⟨k, v⟩
    cases v <;> simp [decodeAttrFields, List.all_cons, ih]

theorem decodeCandidate_isSome (j : Json) :
    (decodeCandidate j).isSome = wellShapedRecord j := by
  cases j with
  | str s => rfl
  | num n => rfl
  | arr l => rfl
  | null => rfl
  | obj fs =>
    cases h1 : lookupField fs "class" with
    | none =>
      simp [decodeCandidate, wellShapedRecord, hasStringField, h1]
    | some j1 =>
      cases h2 : lookupField fs "exact_text" with
      | none =>
        cases j1 <;>
          simp [decodeCandidate, wellShapedRecord, hasStringField, attrsFieldOk, h1, h2]
      | some j2 =>
        cases j1 <;> cases j2 <;>
          try simp [decodeCandidate, wellShapedRecord, hasStringField, attrsFieldOk, h1, h2]
        case str.str s1 s2 =>
          cases h3 : lookupField fs "attributes" with
          | none =>
            simp [decodeCandidate, wellShapedRecord, hasStringField, attrsFieldOk, h1, h2, h3]
          | some a =>
            cases a <;>
              simp [decodeCandidate, wellShapedRecord, hasStringField, attrsFieldOk,
                decodeAttrs, h1, h2, h3, decodeAttrFields_isSome]

theorem decodeCandidateItems_isSome (items : List Json) :
    (decodeCandidateItems items).isSome = items.all wellShapedRecord := by
  induction items with
  | nil => rfl
  | cons j rest ih =>
    rw [List.all_cons, ← decodeCandidate_isSome j, ← ih]
    cases hc : decodeCandidate j <;> cases hr : decodeCandidateItems rest <;>
      simp [decodeCandidateItems, hc, hr]

/-! Claim theorems -/

/-- C1: in every document produced by the pipeline, every extraction
with `alignment_status = exact` carries a `char_interval`, and slicing the
source text at it (`source_text[start:end]`) yields exactly `exact_text`
verbatim. -/
theorem pipeline_exact_slice (docId : String) (text : List Char)
    (cands : List Candidate) (e : Extraction)
    (he : e ∈ (runPipeline docId text cands).1.extractions)
    (hst : e.alignment_status = .exact) :
    ∃ iv, e.char_interval = some iv ∧
      pySlice text iv.start iv.stop = e.exact_text := by
  have h1 : e ∈ alignCandidates text cands :=
    resolve_subset (l := alignCandidates text cands) he
  exact alignAux_exactSliceInv text 0 cands e h1 hst

/-- Witness for C1 at the demo input of `src/main.py`. -/
theorem pipeline_exact_slice_witness :
    ∃ iv, (⟨"character", "Romeo".toList, [], some ⟨63, 68⟩,
        .exact⟩ : Extraction).char_interval = some iv ∧
      pySlice input_text.toList iv.start iv.stop = "Romeo".toList :=
  pipeline_exact_slice "doc_0" input_text.toList
    [⟨"character", "Romeo".toList, []⟩]
    ⟨"character", "Romeo".toList, [], some ⟨63, 68⟩, .exact⟩
    (by decide) (by decide)

/-- C2: in every resolved document, no two exact-aligned extractions
have overlapping char intervals; every dropped overlap is reported (the
kept extractions plus the conflict count account for every candidate);
and the resolver keeps the earlier-starting side of a conflict: whenever
an exact-aligned extraction of the aligner's output is dropped, some kept
exact-aligned extraction starts no later than it and its span covers the
dropped one's start (so the dropped one is the later-starting one). -/
theorem pipeline_no_exact_overlap (docId : String) (text : List Char)
    (cands : List Candidate) :
    (runPipeline docId text cands).1.extractions.Pairwise NoExactOverlap ∧
      (runPipeline docId text cands).1.extractions.length
        + (runPipeline docId text cands).2 = cands.length ∧
      (∀ e ∈ alignCandidates text cands, e.alignment_status = .exact →
        ∀ iv, e.char_interval = some iv →
          e ∉ (runPipeline docId text cands).1.extractions →
          ∃ e' ∈ (runPipeline docId text cands).1.extractions,
            e'.alignment_status = .exact ∧
            ∃ iv', e'.char_interval = some iv' ∧
              iv'.start ≤ iv.start ∧ iv.start < iv'.stop) := by
  refine ⟨?_, ?_, ?_⟩
  · show (resolveExtractions (alignCandidates text cands)).1.Pairwise NoExactOverlap
    exact resolve_pairwise_noOverlap _
  · show (resolveExtractions (alignCandidates text cands)).1.length
      + (resolveExtractions (alignCandidates text cands)).2 = cands.length
    have h1 := resolve_length (alignCandidates text cands)
    have h2 : (alignCandidates text cands).length = cands.length :=
      alignAux_length text 0 cands
    omega
  · intro e he hst iv hiv hnk
    have hnk2 : e ∉ (resolveExtractions (alignCandidates text cands)).1 := hnk
    have hmemf : e ∈ (alignCandidates text cands).filter
        (fun e => e.char_interval.isSome) :=
      List.mem_filter.mpr ⟨he, by simp [hiv]⟩
    have hmems : e ∈ List.insertionSort startLE
        ((alignCandidates text cands).filter (fun e => e.char_interval.isSome)) :=
      (List.mem_insertionSort startLE).mpr hmemf
    have hsort : (List.insertionSort startLE
        ((alignCandidates text cands).filter
          (fun e => e.char_interval.isSome))).Pairwise startLE :=
      List.sorted_insertionSort startLE _
    have hnkept : e ∉ (sweep 0 (List.insertionSort startLE
        ((alignCandidates text cands).filter
          (fun e => e.char_interval.isSome)))).1 := by
      intro h
      exact hnk2 (List.mem_append_left _ h)
    rcases sweep_dropped 0 _ hsort e hmems hst iv hiv hnkept with
      hlt | ⟨e', he2, hste, iv', hiv', hle, hstop⟩
    · exact absurd hlt (Nat.not_lt_zero _)
    · exact ⟨e', List.mem_append_left _ he2, hste, iv', hiv', hle, hstop⟩

/-- C3: in every resolved document the extractions with a char
interval come first, sorted by ascending start; the unaligned ones follow,
and they are exactly the unaligned extractions of the aligner's output in
their original candidate order (a subsequence of the candidate list). -/
theorem pipeline_ordering (docId : String) (text : List Char)
    (cands : List Candidate) :
    (runPipeline docId text cands).1.extractions.Pairwise ResolvedOrder ∧
      (runPipeline docId text cands).1.extractions.filter
          (fun e => e.char_interval.isNone)
        = (alignCandidates text cands).filter (fun e => e.char_interval.isNone) ∧
      List.Sublist
        (((runPipeline docId text cands).1.extractions.filter
            (fun e => e.char_interval.isNone)).map toCandidate)
        cands := by
  refine ⟨?_, ?_, ?_⟩
  · show (resolveExtractions (alignCandidates text cands)).1.Pairwise ResolvedOrder
    exact resolve_pairwise_order _
  · show (resolveExtractions (alignCandidates text cands)).1.filter
        (fun e => e.char_interval.isNone)
      = (alignCandidates text cands).filter (fun e => e.char_interval.isNone)
    exact resolve_unaligned_tail _
  · show (((resolveExtractions (alignCandidates text cands)).1.filter
        (fun e => e.char_interval.isNone)).map toCandidate).Sublist cands
    rw [resolve_unaligned_tail]
    have h1 : ((alignCandidates text cands).filter
        (fun e => e.char_interval.isNone)).Sublist (alignCandidates text cands) :=
      List.filter_sublist _
    have h2 := h1.map toCandidate
    have h3 : (alignCandidates text cands).map toCandidate = cands :=
      alignAux_map_toCandidate text 0 cands
    rwa [h3] at h2

/-- C4: the Schema Compiler fails with `SchemaError` if and only if
the examples are empty or some example extraction's `exact_text` is not a
literal substring of its owning example's text. -/
theorem schemaCompiler_error_iff (desc : String) (exs : List ExampleData) :
    isSchemaErr (compileSchema desc exs) = true ↔
      (exs = [] ∨ ∃ ex ∈ exs, ∃ e ∈ ex.extractions,
        ¬ IsSubstring e.exact_text ex.text) := by
  rw [compileSchema]
  split
  · rename_i hemp
    simp only [isSchemaErr]
    constructor
    · intro _
      left
      exact List.isEmpty_iff.mp hemp
    · intro _
      trivial
  · rename_i hemp
    split
    · rename_i hall
      simp only [isSchemaErr]
      constructor
      · intro h
        cases h
      · rintro (rfl | ⟨ex, hex, e, he, hsub⟩)
        · exact absurd rfl hemp
        · exfalso
          apply hsub
          have h1 := List.all_eq_true.mp hall ex hex
          have h2 := List.all_eq_true.mp h1 e he
          exact findOccAux_isSome_iff.mp h2
    · rename_i hall
      simp only [isSchemaErr]
      constructor
      · intro _
        right
        have hall' : exs.all exampleSelfConsistent = false :=
          Bool.eq_false_iff.mpr hall
        rcases List.all_eq_false.mp hall' with ⟨ex, hex, hfx⟩
        have hfx' : ex.extractions.all
            (fun e => isSubstringB e.exact_text ex.text) = false :=
          Bool.eq_false_iff.mpr hfx
        rcases List.all_eq_false.mp hfx' with ⟨e, he, hfe⟩
        refine ⟨ex, hex, e, he, ?_⟩
        intro hsub
        exact hfe (findOccAux_isSome_iff.mpr hsub)
      · intro _
        trivial

/-- C5: on the demo input text of `src/main.py` (length 68), the
candidate `{class: "character", exact_text: "Romeo"}` aligns exactly with
interval `(63, 68) = (len(text)-5, len(text))`, and no occurrence of
"Romeo" starts after 63, so this is the final occurrence. -/
theorem aligner_demo_final_romeo :
    alignCandidates input_text.toList [⟨"character", "Romeo".toList, []⟩]
        = [⟨"character", "Romeo".toList, [], some ⟨63, 68⟩, .exact⟩] ∧
      input_text.toList.length = 68 ∧
      63 = input_text.toList.length - 5 ∧
      findFrom input_text.toList "Romeo".toList 64 = none := by
  decide

/-- C6: one persisted line round-trips: decoding the encoding of any
`AnnotatedDocument` succeeds and reconstructs an equivalent document
(same text, same extraction count, same classes, attributes and char
intervals). -/
theorem persisted_roundtrip (d : AnnotatedDocument) :
    ∃ d', decodeDoc (encodeDoc d) = some d' ∧
      d'.text = d.text ∧
      d'.extractions.length = d.extractions.length ∧
      d'.extractions.map (fun e => e.extraction_class)
        = d.extractions.map (fun e => e.extraction_class) ∧
      d'.extractions.map (fun e => e.attributes)
        = d.extractions.map (fun e => e.attributes) ∧
      d'.extractions.map (fun e => e.char_interval)
        = d.extractions.map (fun e => e.char_interval) :=
  ⟨d, decodeDoc_encodeDoc d, rfl, rfl, rfl, rfl, rfl⟩

/-- C7: the Span Aligner is deterministic — two runs on the same
`(source_text, candidate list)` pair produce identical char intervals —
and idempotent: re-aligning the candidates of a run's own output
reproduces that output exactly. -/
theorem spanAligner_idempotent (text : List Char) (cands : List Candidate)
    (run1 run2 : List Extraction)
    (h1 : run1 = alignCandidates text cands)
    (h2 : run2 = alignCandidates text cands) :
    run1.map (fun e => e.char_interval) = run2.map (fun e => e.char_interval) ∧
      alignCandidates text (run1.map toCandidate) = run1 := by
  subst h1
  subst h2
  refine ⟨rfl, ?_⟩
  have h3 : (alignCandidates text cands).map toCandidate = cands :=
    alignAux_map_toCandidate text 0 cands
  rw [h3]

/-- Witness for C7 at the demo input of `src/main.py`. -/
theorem spanAligner_idempotent_witness :
    (alignCandidates input_text.toList
        [⟨"character", "Romeo".toList, []⟩]).map (fun e => e.char_interval)
      = (alignCandidates input_text.toList
        [⟨"character", "Romeo".toList, []⟩]).map (fun e => e.char_interval) ∧
    alignCandidates input_text.toList
        ((alignCandidates input_text.toList
          [⟨"character", "Romeo".toList, []⟩]).map toCandidate)
      = alignCandidates input_text.toList [⟨"character", "Romeo".toList, []⟩] :=
  spanAligner_idempotent input_text.toList [⟨"character", "Romeo".toList, []⟩]
    _ _ rfl rfl

/-- C8: the Response Parser succeeds exactly on raw output of the
expected structured shape (a list of records each carrying string `class`
and `exact_text`, with a well-formed `attributes` object when present) —
so it raises `MalformedResponseError` exactly on the rest — and a parsed
record without an `attributes` field gets the empty attribute set. -/
theorem responseParser_malformed_iff :
    (∀ raw : Json, isParseOk (parseResponse raw) = wellShapedResponse raw) ∧
      (∀ c t : String,
        parseResponse (.arr [.obj [("class", .str c), ("exact_text", .str t)]])
          = .ok [⟨c, t.toList, []⟩]) := by
  constructor
  · intro raw
    cases raw with
    | str s => rfl
    | num n => rfl
    | obj fs => rfl
    | null => rfl
    | arr items =>
      rw [show wellShapedResponse (.arr items) = items.all wellShapedRecord from rfl,
        ← decodeCandidateItems_isSome]
      cases h : decodeCandidateItems items <;>
        simp [parseResponse, isParseOk, h]
  · intro c t
    rfl

/-- C9: the Prompt Builder is deterministic — any two invocations with
the same schema, task description and examples produce identical payload
strings (it is a pure function of these inputs). -/
theorem promptBuilder_deterministic (s1 s2 : Schema) (d1 d2 : String)
    (e1 e2 : List ExampleData)
    (hs : s1 = s2) (hd : d1 = d2) (he : e1 = e2) :
    buildPrompt s1 d1 e1 = buildPrompt s2 d2 e2 := by
  subst hs
  subst hd
  subst he
  rfl

/-- Witness for C9 at the demo prompt and examples of `src/main.py`. -/
theorem promptBuilder_deterministic_witness :
    buildPrompt ⟨["character"], [("character", ["emotional_state"])]⟩ prompt examples
      = buildPrompt ⟨["character"], [("character", ["emotional_state"])]⟩ prompt
          examples :=
  promptBuilder_deterministic _ _ _ _ _ _ rfl rfl rfl

/-- C10: every extraction in the demo script's examples list claims a
verbatim, case-sensitive substring of its owning example's text, so the
example set satisfies the Schema Compiler's self-consistency precondition
and the `SchemaError` branch is unreachable on the demo's input. -/
theorem demo_examples_self_consistent :
    examples.all exampleSelfConsistent = true ∧
      examples ≠ [] ∧
      isSchemaErr (compileSchema prompt examples) = false := by
  decide

end LangExtract
